import Mathlib

/-!
Verification of the frame-selection and atlas-packing pipeline of the
flip-predict repository.  The Python sources are shallowly embedded:
rasters become a structure with a total pixel map, PIL paste operations
become pixel-map updates, NumPy means become exact rational arithmetic,
and the per-script selection loops become Lean functions on `List ℕ`.
-/

namespace FlipPredict

/-- A straight-alpha RGBA pixel; channel values range over 0..255. -/
structure Pixel where
  r : ℕ
  g : ℕ
  b : ℕ
  a : ℕ
deriving DecidableEq, Repr

/-- The fully transparent pixel `(0, 0, 0, 0)` used for canvas fill. -/
def Pixel.clear : Pixel := ⟨0, 0, 0, 0⟩

instance : Inhabited Pixel := ⟨Pixel.clear⟩

/-- A raster image: integer dimensions plus a total pixel map.
Coordinates outside `[0, w) × [0, h)` are never observed by the theorems. -/
structure Img where
  w : ℕ
  h : ℕ
  pix : ℕ → ℕ → Pixel

instance : Inhabited Img := ⟨⟨0, 0, fun _ _ => Pixel.clear⟩⟩

/-- PIL `Image.new('RGBA', (w, h), (0, 0, 0, 0))`: a fully transparent canvas. -/
def Img.new (w h : ℕ) : Img := ⟨w, h, fun _ _ => Pixel.clear⟩

/-- Membership of the point `(px, py)` in the axis-aligned rectangle with
top-left corner `(x0, y0)`, width `w` and height `h`. -/
def inRect (px py x0 y0 w h : ℕ) : Prop :=
  x0 ≤ px ∧ px < x0 + w ∧ y0 ≤ py ∧ py < y0 + h

instance (px py x0 y0 w h : ℕ) : Decidable (inRect px py x0 y0 w h) := by
  unfold inRect; infer_instance

/-- PIL `dst.paste(src, (x0, y0))` without a mask: every channel of the source,
including fully transparent pixels, replaces the destination inside the
pasted rectangle. -/
def pasteNoMask (dst src : Img) (x0 y0 : ℕ) : Img :=
  { dst with pix := fun x y =>
      if inRect x y x0 y0 src.w src.h then src.pix (x - x0) (y - y0)
      else dst.pix x y }

/-- One channel of PIL's alpha interpolation: source weighted by the mask
value `m`, destination by `255 - m`. -/
def blendChannel (s d m : ℕ) : ℕ := (s * m + d * (255 - m)) / 255

/-- Blend a source pixel over a destination pixel using the source's own
alpha as the mask, as PIL does for `paste(im, box, im)` with an RGBA mask:
mask 0 keeps the destination, mask 255 copies the source. -/
def blendPixel (s d : Pixel) : Pixel :=
  ⟨blendChannel s.r d.r s.a, blendChannel s.g d.g s.a,
   blendChannel s.b d.b s.a, blendChannel s.a d.a s.a⟩

/-- PIL `dst.paste(src, (x0, y0), src)`: paste masked by the source's alpha. -/
def pasteMasked (dst src : Img) (x0 y0 : ℕ) : Img :=
  { dst with pix := fun x y =>
      if inRect x y x0 y0 src.w src.h then
        blendPixel (src.pix (x - x0) (y - y0)) (dst.pix x y)
      else dst.pix x y }

/-- The shared paste loop of every packer script:
`for i, img in enumerate(images): sheet.paste(img, ((i % fpr) * cw, (i // fpr) * ch))`,
with the paste operation (masked or not) as a parameter and `i` starting
from `i0`. -/
def packLoop (paste : Img → Img → ℕ → ℕ → Img) (fpr cw ch : ℕ) :
    ℕ → Img → List Img → Img
  | _, cv, [] => cv
  | i, cv, f :: rest =>
      packLoop paste fpr cw ch (i + 1)
        (paste cv f ((i % fpr) * cw) ((i / fpr) * ch)) rest

/-- Python `rows = (total_frames + frames_per_row - 1) // frames_per_row`. -/
def gridRows (k fpr : ℕ) : ℕ := (k + fpr - 1) / fpr

/-! ### Frame selectors -/

/-- The guarded uniform selection of `create_bailongma_sprite.py` (lines
44-51, `target_frames = 48`) and `create_bailongma_2k.py` (lines 44-49,
`target_frames = 80`): if `total_frames <= target_frames` return every
index, otherwise `[int(i * step) for i in range(K)]` with
`step = (total_frames - 1) / (target_frames - 1)`.  Here the float stride
is idealised as exact integer floor division; this idealisation supports
only rounding-robust properties (monotonicity, range, length), while
`uniformSelectF64` below models the float arithmetic bit-exactly. -/
def uniformSelect (n k : ℕ) : List ℕ :=
  if n ≤ k then List.range n
  else (List.range k).map fun i => i * (n - 1) / (k - 1)

/-- The `create_bailongma_sprite.create_sprite_48_frames` frame indices. -/
def create_sprite_48_frames_indices (n : ℕ) : List ℕ := uniformSelect n 48

/-- The `create_bailongma_2k.create_sprite_80_frames_2k` frame indices. -/
def create_sprite_80_frames_2k_indices (n : ℕ) : List ℕ := uniformSelect n 80

/-- The unguarded stride of `create_zhaoyeyushizi_sprite.py` line 23 and
`recreate_baititiwu_sprite.py` / `recreate_shifachi_sprite.py` line 27:
`[int(i * total_frames / 48) for i in range(48)]`. -/
def stride48Select (m : ℕ) : List ℕ := (List.range 48).map fun i => i * m / 48

/-- The `create_zhaoyeyushizi_sprite` selection over `n` files. -/
def create_zhaoyeyushizi_indices (n : ℕ) : List ℕ := stride48Select n

/-- The `recreate_baititiwu_sprite` selection: the file list is capped to its
first 120 entries (`useful_frames = frame_files[:120]`) before the stride,
so the effective count is `min 120 n`. -/
def recreate_baititiwu_indices (n : ℕ) : List ℕ := stride48Select (min 120 n)

/-- Round `x / y` to the nearest integer with ties to even (`y > 0`). -/
def rne (x y : ℕ) : ℕ :=
  let q := x / y
  let r := x % y
  if 2 * r < y then q
  else if y < 2 * r then q + 1
  else if q % 2 = 0 then q else q + 1

/-- Round the nonnegative rational `num / den` to IEEE binary64 (round to
nearest, ties to even, 53-bit significand), returned as a dyadic pair
`(m, s)` of value `m / 2 ^ s` with `m < 2 ^ 53`.  Bit-exact for the value
`0` and for values in `[1, 2 ^ 53)`, which covers every stride and every
product the selection scripts compute. -/
def fl64 (num den : ℕ) : ℕ × ℕ :=
  if num = 0 ∨ den = 0 then (0, 0)
  else
    let s := (((List.range 53).find? fun s =>
      decide (2 ^ 52 ≤ num * 2 ^ s / den)).getD 52)
    let m := rne (num * 2 ^ s) den
    if m = 2 ^ 53 then (2 ^ 52, s - 1) else (m, s)

/-- Python `int(x)` truncation of a nonnegative binary64 value. -/
def f64toInt (f : ℕ × ℕ) : ℕ := f.1 / 2 ^ f.2

/-- The bailongma uniform selection with the Python float arithmetic
modelled bit-exactly: `step = (total_frames - 1) / (target_frames - 1)` is
the binary64 rounding of the exact quotient, and each `int(i * step)` is a
correctly rounded binary64 product of the exact integer `i` with the
stride, then truncated. -/
def uniformSelectF64 (n k : ℕ) : List ℕ :=
  if n ≤ k then List.range n
  else
    (List.range k).map fun i =>
      f64toInt (fl64 (i * (fl64 (n - 1) (k - 1)).1) (2 ^ (fl64 (n - 1) (k - 1)).2))

/-! ### Atlas packers -/

/-- Python `max(s[0] for s in sizes)`. -/
def maxW (images : List Img) : ℕ := (images.map Img.w).foldr max 0

/-- Python `max(s[1] for s in sizes)`. -/
def maxH (images : List Img) : ℕ := (images.map Img.h).foldr max 0

/-- The size-heterogeneity test `len(set(sizes)) > 1` of
`create_sprite_sheet.py` line 49 / `create_zhahuangfeidian_sprite.py`
line 51. -/
def heterogeneous (images : List Img) : Prop :=
  1 < (images.map fun im => (im.w, im.h)).dedup.length

instance (images : List Img) : Decidable (heterogeneous images) := by
  unfold heterogeneous; infer_instance

/-- Letterboxing one frame: paste it, centred, onto a fully transparent
canvas of the elementwise-maximum dimensions (`create_sprite_sheet.py`
lines 60-63). -/
def centerPad (mw mh : ℕ) (im : Img) : Img :=
  pasteNoMask (Img.new mw mh) im ((mw - im.w) / 2) ((mh - im.h) / 2)

/-- Lines 47-67 of `create_sprite_sheet.py` (identically lines 49-69 of
`create_zhahuangfeidian_sprite.py`): when the sizes are heterogeneous,
letterbox every non-maximal frame; otherwise leave the list untouched. -/
def adjustSizes (images : List Img) : List Img :=
  if heterogeneous images then
    images.map fun im =>
      if (im.w, im.h) ≠ (maxW images, maxH images) then
        centerPad (maxW images) (maxH images) im
      else im
  else images

/-- The cell size chosen by `create_sprite_sheet.py` lines 52-70: the
elementwise maxima in padding mode, the first frame's size otherwise. -/
def frameDims (images : List Img) : ℕ × ℕ :=
  if heterogeneous images then (maxW images, maxH images)
  else (images.headI.w, images.headI.h)

/-- The function `create_sprite_sheet.create_sprite_sheet` (lines 47-96): size
normalisation, transparent canvas of
`(fw·fpr + padding·(fpr−1)) × (fh·rows + padding·(rows−1))`, and the
unmasked paste loop at `(col·(fw+padding), row·(fh+padding))`. -/
def createSpriteSheet (images : List Img) (fpr padding : ℕ) : Img :=
  let d := frameDims images
  let rows := gridRows images.length fpr
  packLoop pasteNoMask fpr (d.1 + padding) (d.2 + padding) 0
    (Img.new (d.1 * fpr + padding * (fpr - 1)) (d.2 * rows + padding * (rows - 1)))
    (adjustSizes images)

/-- The packing loop of `create_bailongma_sprite.create_sprite_48_frames`
(lines 57-83): 8 columns, cell size from the first selected frame,
unmasked pastes. -/
def createSprite48Pack (frames : List Img) : Img :=
  let fw := frames.headI.w
  let fh := frames.headI.h
  packLoop pasteNoMask 8 fw fh 0
    (Img.new (fw * 8) (fh * gridRows frames.length 8)) frames

/-- The function `create_smooth_sprite.create_smooth_sprite` (lines 42-81): frames are
resampled to `(int(1920·0.8), int(1088·0.8)) = (1536, 870)` and pasted
with the frame itself as the alpha mask onto a transparent 6×4-cell
canvas.  The Lanczos resampler is an external library kernel and is
passed as a parameter. -/
def create_smooth_sprite (resample : ℕ → ℕ → Img → Img) (frames : List Img) : Img :=
  packLoop pasteMasked 6 1536 870 0 (Img.new (1536 * 6) (870 * 4))
    (frames.map (resample 1536 870))

/-! ### `optimize_sprite_v2.py`: 192-frame atlas → 48-frame atlas -/

/-- PIL `img.crop((x0, y0, x1, y1))`: the `(x1−x0) × (y1−y0)` region with
top-left `(x0, y0)`; pixels beyond the source bounds are zero-filled. -/
def crop (im : Img) (x0 y0 x1 y1 : ℕ) : Img :=
  ⟨x1 - x0, y1 - y0, fun x y =>
    if x0 + x < im.w ∧ y0 + y < im.h then im.pix (x0 + x) (y0 + y)
    else Pixel.clear⟩

namespace OptimizeSpriteV2

/-- The extract-and-repack loop of `optimize_sprite_v2.optimize_sprite`
(lines 51-82): iterate over the original frame indices `i`, crop the
960×544 cell at `(i mod 16, i div 16)` of the input atlas, and paste it
(unmasked) at cell `(fidx mod 8, fidx div 8)` of the new canvas; the
counter guard `frame_index >= 48 → break` is kept. -/
def loop (img : Img) : List ℕ → ℕ → Img → Img
  | [], _, cv => cv
  | i :: rest, fidx, cv =>
      if 48 ≤ fidx then cv
      else loop img rest (fidx + 1)
        (pasteNoMask cv
          (crop img ((i % 16) * 960) ((i / 16) * 544)
            ((i % 16) * 960 + 960) ((i / 16) * 544 + 544))
          ((fidx % 8) * 960) ((fidx / 8) * 544))

/-- The function `optimize_sprite_v2.optimize_sprite`: new transparent canvas of
`(960·8) × (544·6)`, frames taken from `range(0, 192, 4)`. -/
def optimize_sprite (img : Img) : Img :=
  loop img ((List.range 48).map (· * 4)) 0 (Img.new (960 * 8) (544 * 6))

end OptimizeSpriteV2

/-! ### `optimize_frames.py`: motion analysis -/

/-- Python `sum(differences[i:i+K])`: cumulative activity of the length-`k`
window starting at `i`. -/
def windowSum (k : ℕ) (d : List ℚ) (i : ℕ) : ℚ := ((d.drop i).take k).sum

/-- The scan of `optimize_frames.extract_motion_cycle` lines 100-108:
`max_activity = 0; best_start = 0; for i in range(len(differences) - window_size): ...`,
folded over the first `m` candidate starts.  The state is
`(max_activity, best_start)`. -/
def bestStartState (k : ℕ) (d : List ℚ) (m : ℕ) : ℚ × ℕ :=
  (List.range m).foldl
    (fun st i => if st.1 < windowSum k d i then (windowSum k d i, i) else st)
    (0, 0)

/-- The value of `best_start` after the full scan.  Note the scan range
`range(len(differences) - window_size)` stops one short of the last valid
window start `len(differences) - window_size`. -/
def best_start (k : ℕ) (d : List ℚ) : ℕ := (bestStartState k d (d.length - k)).2

/-- The function `extract_motion_cycle` returns `images[best_start : best_start + window_size]`
(the filename list is sliced identically).  `window_size = 48` is inlined
in the source and kept as the parameter `k`. -/
def extract_motion_cycle {α : Type} (k : ℕ) (images : List α) (d : List ℚ) :
    List α :=
  (images.drop (best_start k d)).take k

/-! ### Inter-frame difference -/

/-- Sum over the four channels of the absolute per-channel difference of
two pixels (`np.abs(arr1 - arr2)` contributions of one pixel). -/
def pixAbsDiff (p q : Pixel) : ℕ :=
  Nat.dist p.r q.r + Nat.dist p.g q.g + Nat.dist p.b q.b + Nat.dist p.a q.a

/-- Total absolute difference over all pixels and channels. -/
def sumAbsDiff (im1 im2 : Img) : ℕ :=
  Finset.sum (Finset.range im1.w) fun x =>
    Finset.sum (Finset.range im1.h) fun y =>
      pixAbsDiff (im1.pix x y) (im2.pix x y)

/-- NumPy `np.mean(np.abs(arr1.astype(float) - arr2.astype(float)))` over an
`h × w × 4` array: the total absolute difference divided by `w·h·4`. -/
def meanAbsDiff (im1 im2 : Img) : ℚ :=
  (sumAbsDiff im1 im2 : ℚ) / ((im1.w : ℚ) * (im1.h : ℚ) * 4)

namespace OptimizeFrames

/-- In `optimize_frames.py` lines 10-15: the mean absolute difference of the
two frames at native resolution — no downscale is applied. -/
def calculate_frame_difference (im1 im2 : Img) : ℚ := meanAbsDiff im1 im2

end OptimizeFrames

/-- Modelled from the spec: the "downscaled (192×108) representations" of
a frame used by `analyze_frames.calculate_frame_difference`
(`img.resize((192, 108))`).  The resampling kernel of PIL's
`Image.resize` is an external library internal absent from the sources,
so the downscale is modelled as point sampling onto the 192×108 grid. -/
def resize192x108 (im : Img) : Img :=
  ⟨192, 108, fun x y => im.pix (x * im.w / 192) (y * im.h / 108)⟩

namespace AnalyzeFrames

/-- In `analyze_frames.py` lines 16-21: the mean absolute difference of the
downscaled 192×108 representations of the two frames. -/
def calculate_frame_difference (im1 im2 : Img) : ℚ :=
  meanAbsDiff (resize192x108 im1) (resize192x108 im2)

end AnalyzeFrames

/-- All four channels of a pixel are 8-bit values. -/
def pixLe255 (p : Pixel) : Prop :=
  p.r ≤ 255 ∧ p.g ≤ 255 ∧ p.b ≤ 255 ∧ p.a ≤ 255

/-- A 1×5 all-transparent-black frame. -/
def blackFrame : Img := ⟨1, 5, fun _ _ => ⟨0, 0, 0, 0⟩⟩

/-- A 1×5 frame that is opaque white on its top row and transparent black
elsewhere. -/
def topRowWhiteFrame : Img :=
  ⟨1, 5, fun _ y => if y = 0 then ⟨255, 255, 255, 255⟩ else ⟨0, 0, 0, 0⟩⟩

/-! ### Quiescent-run detection (`optimize_frames.analyze_frames`, lines 41-69) -/

/-- Python `threshold = avg_diff * 0.3` with `avg_diff = np.mean(differences)`. -/
def threshold (d : List ℚ) : ℚ := d.sum / (d.length : ℚ) * (3 / 10)

/-- Index `i` is a paused frame: a valid index of the difference signal
whose value is strictly below the threshold. -/
def isBelow (d : List ℚ) (i : ℕ) : Prop :=
  i < d.length ∧ d.getD i 0 < threshold d

/-- Lines 52-55: `paused_frames = [i for i, diff in enumerate(differences) if diff < threshold]`. -/
def pausedFrames (d : List ℚ) : List ℕ :=
  (List.range d.length).filter fun i => decide (d.getD i 0 < threshold d)

/-- Lines 60-69: group consecutive paused indices, emitting a finished
group only when its length exceeds 5.  `cur` is the current group in
reverse order (its head is the most recently appended index). -/
def groupLoop : List ℕ → List ℕ → List (List ℕ)
  | cur, [] => if 5 < cur.length then [cur.reverse] else []
  | cur, f :: rest =>
      if f = cur.headD 0 + 1 then groupLoop (f :: cur) rest
      else
        if 5 < cur.length then cur.reverse :: groupLoop [f] rest
        else groupLoop [f] rest

/-- Lines 57-69: `pause_groups` — empty when there are no paused frames,
otherwise the grouping loop seeded with the first paused index. -/
def pauseGroups (d : List ℚ) : List (List ℕ) :=
  match pausedFrames d with
  | [] => []
  | p :: rest => groupLoop [p] rest

/-- Interval `[a, b]` is a maximal below-threshold run: nonempty, every value in it
is strictly below the threshold, and it can be extended in neither
direction. -/
def isMaxRun (d : List ℚ) (a b : ℕ) : Prop :=
  a ≤ b ∧ (∀ i, a ≤ i → i ≤ b → isBelow d i) ∧
  (∀ j, j + 1 = a → ¬ isBelow d j) ∧ ¬ isBelow d (b + 1)

/-! ### Lemmas and claim theorems -/

lemma blendPixel_alpha_zero (s d : Pixel) (hs : s.a = 0) : blendPixel s d = d := by
  cases s with
  | mk r g b a =>
    cases d
    simp only [Pixel.a] at hs
    subst hs
    simp [blendPixel, blendChannel]

lemma blendPixel_clear_of_alpha_zero (s : Pixel) (hs : s.a = 0) :
    blendPixel s Pixel.clear = Pixel.clear :=
  blendPixel_alpha_zero s Pixel.clear hs

lemma pasteNoMask_pix_out (dst src : Img) (x0 y0 px py : ℕ)
    (h : ¬ inRect px py x0 y0 src.w src.h) :
    (pasteNoMask dst src x0 y0).pix px py = dst.pix px py := by
  simp [pasteNoMask, h]

lemma pasteNoMask_pix_in (dst src : Img) (x0 y0 px py : ℕ)
    (h : inRect px py x0 y0 src.w src.h) :
    (pasteNoMask dst src x0 y0).pix px py = src.pix (px - x0) (py - y0) := by
  simp [pasteNoMask, h]

lemma pasteMasked_pix_out (dst src : Img) (x0 y0 px py : ℕ)
    (h : ¬ inRect px py x0 y0 src.w src.h) :
    (pasteMasked dst src x0 y0).pix px py = dst.pix px py := by
  simp [pasteMasked, h]

lemma pasteMasked_pix_in (dst src : Img) (x0 y0 px py : ℕ)
    (h : inRect px py x0 y0 src.w src.h) :
    (pasteMasked dst src x0 y0).pix px py =
      blendPixel (src.pix (px - x0) (py - y0)) (dst.pix px py) := by
  simp [pasteMasked, h]

lemma pasteNoMask_w (dst src : Img) (x0 y0 : ℕ) :
    (pasteNoMask dst src x0 y0).w = dst.w := rfl

lemma pasteMasked_w (dst src : Img) (x0 y0 : ℕ) :
    (pasteMasked dst src x0 y0).w = dst.w := rfl

section PackLoop

variable (paste : Img → Img → ℕ → ℕ → Img) (fpr cw ch : ℕ)

/-- The canvas dimensions are untouched by the paste loop, provided the
paste operation itself preserves them. -/
lemma packLoop_dims
    (hw : ∀ dst src x0 y0, (paste dst src x0 y0).w = dst.w)
    (hh : ∀ dst src x0 y0, (paste dst src x0 y0).h = dst.h) :
    ∀ (l : List Img) (i0 : ℕ) (cv : Img),
      (packLoop paste fpr cw ch i0 cv l).w = cv.w ∧
      (packLoop paste fpr cw ch i0 cv l).h = cv.h := by
  intro l
  induction l with
  | nil => intro i0 cv; simp [packLoop]
  | cons f rest ih =>
      intro i0 cv
      simp only [packLoop]
      rcases ih (i0 + 1) (paste cv f ((i0 % fpr) * cw) ((i0 / fpr) * ch)) with ⟨h1, h2⟩
      exact ⟨by rw [h1, hw], by rw [h2, hh]⟩

/-- A pixel lying in no pasted rectangle keeps its canvas value. -/
lemma packLoop_pix_out
    (hout : ∀ dst src x0 y0 px py, ¬ inRect px py x0 y0 src.w src.h →
      (paste dst src x0 y0).pix px py = dst.pix px py) :
    ∀ (l : List Img) (i0 : ℕ) (cv : Img) (px py : ℕ),
      (∀ k, k < l.length →
        ¬ inRect px py (((i0 + k) % fpr) * cw) (((i0 + k) / fpr) * ch)
          (l.getD k default).w (l.getD k default).h) →
      (packLoop paste fpr cw ch i0 cv l).pix px py = cv.pix px py := by
  intro l
  induction l with
  | nil => intro i0 cv px py _; simp [packLoop]
  | cons f rest ih =>
      intro i0 cv px py hnone
      simp only [packLoop]
      have h0 := hnone 0 (by simp)
      simp only [Nat.add_zero, List.getD_cons_zero] at h0
      rw [ih (i0 + 1) _ px py ?_, hout _ _ _ _ _ _ h0]
      intro k hk
      have := hnone (k + 1) (by simpa using Nat.succ_lt_succ hk)
      simpa [Nat.add_assoc, Nat.add_comm 1 k, Nat.add_left_comm] using this

/-- The value of a pixel that exactly one paste of the loop reaches: it is
the paste value computed from that source frame and the pixel the canvas
held there originally.  `pval` abstracts over the masked and unmasked
variants of the paste operation. -/
lemma packLoop_pix_hit
    (pval : Img → ℕ → ℕ → Pixel → ℕ → ℕ → Pixel)
    (hout : ∀ dst src x0 y0 px py, ¬ inRect px py x0 y0 src.w src.h →
      (paste dst src x0 y0).pix px py = dst.pix px py)
    (hin : ∀ dst src x0 y0 px py, inRect px py x0 y0 src.w src.h →
      (paste dst src x0 y0).pix px py = pval src x0 y0 (dst.pix px py) px py) :
    ∀ (l : List Img) (i0 : ℕ) (cv : Img) (px py : ℕ) (t : ℕ),
      i0 ≤ t → t < i0 + l.length →
      inRect px py ((t % fpr) * cw) ((t / fpr) * ch)
        (l.getD (t - i0) default).w (l.getD (t - i0) default).h →
      (∀ k, k < l.length →
        inRect px py (((i0 + k) % fpr) * cw) (((i0 + k) / fpr) * ch)
          (l.getD k default).w (l.getD k default).h → i0 + k = t) →
      (packLoop paste fpr cw ch i0 cv l).pix px py =
        pval (l.getD (t - i0) default) ((t % fpr) * cw) ((t / fpr) * ch)
          (cv.pix px py) px py := by
  intro l
  induction l with
  | nil => intro i0 cv px py t h1 h2; simp at h2; omega
  | cons f rest ih =>
      intro i0 cv px py t hle hlt hhit huniq
      simp only [packLoop]
      rcases Nat.eq_or_lt_of_le hle with heq | hgt
      · -- the head paste is the unique hit
        subst heq
        simp only [Nat.sub_self, List.getD_cons_zero] at hhit ⊢
        rw [packLoop_pix_out paste fpr cw ch hout rest (i0 + 1) _ px py ?_,
          hin _ _ _ _ _ _ hhit]
        intro k hk hk2
        have := huniq (k + 1) (by simpa using Nat.succ_lt_succ hk)
        have h3 : i0 + (k + 1) = i0 := by
          apply this
          simpa [Nat.add_assoc, Nat.add_comm 1 k, Nat.add_left_comm] using hk2
        omega
      · -- the head paste misses the pixel; recurse on the tail
        have hne : ¬ inRect px py ((i0 % fpr) * cw) ((i0 / fpr) * ch) f.w f.h := by
          intro hcon
          have := huniq 0 (by simp) (by simpa using hcon)
          omega
        have hts : t - i0 = (t - (i0 + 1)) + 1 := by omega
        rw [ih (i0 + 1) _ px py t hgt (by simp at hlt ⊢; omega) ?_ ?_]
        · rw [hout _ _ _ _ _ _ hne, hts, List.getD_cons_succ]
        · rw [hts] at hhit; simpa using hhit
        · intro k hk hk2
          have := huniq (k + 1) (by simpa using Nat.succ_lt_succ hk)
          have h4 : i0 + (k + 1) = t := by
            apply this
            simpa [Nat.add_assoc, Nat.add_comm 1 k, Nat.add_left_comm] using hk2
          omega

end PackLoop

/-- A pixel `(u, v)` inside grid cell `t` (cells of size `cw × ch`, `fpr`
columns) lies in the rectangle of cell `j` exactly when `j = t`. -/
lemma cell_inRect_iff (fpr cw ch : ℕ) (hcw : 0 < cw) (hch : 0 < ch)
    (t j u v : ℕ) (hu : u < cw) (hv : v < ch) :
    inRect ((t % fpr) * cw + u) ((t / fpr) * ch + v)
      ((j % fpr) * cw) ((j / fpr) * ch) cw ch ↔ j = t := by
  constructor
  · rintro ⟨h1, h2, h3, h4⟩
    have hx : j % fpr = t % fpr := by
      have hdiv : ((t % fpr) * cw + u) / cw = t % fpr := by
        rw [Nat.add_comm, Nat.add_mul_div_right _ _ hcw, Nat.div_eq_of_lt hu,
          Nat.zero_add]
      have hdiv2 : ((t % fpr) * cw + u) / cw = j % fpr := by
        apply Nat.div_eq_of_lt_le
        · exact h1
        · simpa [Nat.succ_mul] using h2
      omega
    have hy : j / fpr = t / fpr := by
      have hdiv : ((t / fpr) * ch + v) / ch = t / fpr := by
        rw [Nat.add_comm, Nat.add_mul_div_right _ _ hch, Nat.div_eq_of_lt hv,
          Nat.zero_add]
      have hdiv2 : ((t / fpr) * ch + v) / ch = j / fpr := by
        apply Nat.div_eq_of_lt_le
        · exact h3
        · simpa [Nat.succ_mul] using h4
      omega
    calc j = fpr * (j / fpr) + j % fpr := (Nat.div_add_mod j fpr).symm
      _ = fpr * (t / fpr) + t % fpr := by rw [hx, hy]
      _ = t := Nat.div_add_mod t fpr
  · rintro rfl
    exact ⟨Nat.le_add_right _ _, by omega, Nat.le_add_right _ _, by omega⟩

lemma div_lt_div_of_add_le (d a b : ℕ) (hd : 0 < d) (h : a + d ≤ b) :
    a / d < b / d := by
  have h1 : (a + d) / d = a / d + 1 := Nat.add_div_right a hd
  have h2 : (a + d) / d ≤ b / d := Nat.div_le_div_right h
  omega

lemma stride48Select_sorted (m : ℕ) (hm : 48 ≤ m) :
    (stride48Select m).Pairwise (· < ·) := by
  unfold stride48Select
  rw [List.pairwise_map]
  refine (List.pairwise_lt_range 48).imp ?_
  intro i j hij
  exact div_lt_div_of_add_le 48 (i * m) (j * m) (by norm_num)
    (by nlinarith)

lemma stride48Select_mem_lt (m : ℕ) (hm : 0 < m) :
    ∀ x ∈ stride48Select m, x < m := by
  unfold stride48Select
  intro x hx
  rcases List.mem_map.mp hx with ⟨i, hi, rfl⟩
  have hi47 : i ≤ 47 := by have := List.mem_range.mp hi; omega
  calc i * m / 48 ≤ 47 * m / 48 :=
        Nat.div_le_div_right (Nat.mul_le_mul_right m hi47)
    _ < m := by
        rw [Nat.div_lt_iff_lt_mul (by norm_num : (0:ℕ) < 48)]
        nlinarith

lemma getD_map_range (f : ℕ → ℕ) (k i d : ℕ) (h : i < k) :
    ((List.range k).map f).getD i d = f i := by
  rw [List.getD_eq_getElem?_getD]
  simp [List.getElem?_map, List.getElem?_range, h]

/-- C6: for the guarded uniform selector (both bailongma scripts) under
`2 ≤ K ≤ N`, and for the prefix-capped stride selector of
`recreate_baititiwu_sprite` under `48 ≤ N`, the returned index list is
strictly increasing, contained in `[0, N)`, and of length exactly `K`. -/
theorem C6_selection_invariants (n k : ℕ) (hk : 2 ≤ k) (hkn : k ≤ n) :
    ((uniformSelect n k).Pairwise (· < ·) ∧
      (∀ x ∈ uniformSelect n k, x < n) ∧
      (uniformSelect n k).length = k) ∧
    (48 ≤ n →
      (recreate_baititiwu_indices n).Pairwise (· < ·) ∧
      (∀ x ∈ recreate_baititiwu_indices n, x < n) ∧
      (recreate_baititiwu_indices n).length = 48) := by
  constructor
  · by_cases hnk : n ≤ k
    · have heq : n = k := le_antisymm hnk hkn
      unfold uniformSelect
      rw [if_pos hnk]
      exact ⟨List.pairwise_lt_range n, fun x hx => List.mem_range.mp hx,
        by simp [heq]⟩
    · push_neg at hnk
      unfold uniformSelect
      rw [if_neg (not_le.mpr hnk)]
      have hd : 0 < k - 1 := by omega
      refine ⟨?_, ?_, by simp⟩
      · rw [List.pairwise_map]
        refine (List.pairwise_lt_range k).imp ?_
        intro i j hij
        apply div_lt_div_of_add_le (k - 1) _ _ hd
        have h1 : (i + 1) * (n - 1) ≤ j * (n - 1) :=
          Nat.mul_le_mul_right _ hij
        calc i * (n - 1) + (k - 1) ≤ i * (n - 1) + (n - 1) := by omega
          _ = (i + 1) * (n - 1) := by ring
          _ ≤ j * (n - 1) := h1
      · intro x hx
        rcases List.mem_map.mp hx with ⟨i, hi, rfl⟩
        have hik : i ≤ k - 1 := by have := List.mem_range.mp hi; omega
        calc i * (n - 1) / (k - 1) ≤ (k - 1) * (n - 1) / (k - 1) :=
              Nat.div_le_div_right (Nat.mul_le_mul_right _ hik)
          _ = n - 1 := Nat.mul_div_cancel_left _ hd
          _ < n := by omega
  · intro h48
    have hM : 48 ≤ min 120 n := le_min (by norm_num) h48
    refine ⟨stride48Select_sorted _ hM, ?_, by simp [recreate_baititiwu_indices, stride48Select]⟩
    intro x hx
    exact lt_of_lt_of_le
      (stride48Select_mem_lt _ (by omega) x hx) (min_le_right 120 n)

theorem C6_witness :
    (2 ≤ 48 ∧ 48 ≤ 115) ∧
    (((uniformSelect 115 48).Pairwise (· < ·) ∧
        (∀ x ∈ uniformSelect 115 48, x < 115) ∧
        (uniformSelect 115 48).length = 48) ∧
      (48 ≤ 115 →
        (recreate_baititiwu_indices 115).Pairwise (· < ·) ∧
        (∀ x ∈ recreate_baititiwu_indices 115, x < 115) ∧
        (recreate_baititiwu_indices 115).length = 48)) :=
  ⟨⟨by norm_num, by norm_num⟩,
    C6_selection_invariants 115 48 (by norm_num) (by norm_num)⟩

/-- C2 (amended): the stride-`N/48` scripts (zhaoyeyushizi; baititiwu and
shifachi over their 120-capped prefix) return exactly
`[⌊i·M/48⌋ for i < 48]`, whose first element is `0` but whose last element
is `⌊47·M/48⌋`, in general below `M−1`.  The bailongma scripts compute
`int(i * step)` with the binary64 stride `step = fl((N−1)/(K−1))`,
modelled bit-exactly by `uniformSelectF64`: the first index is always `0`,
and at many sizes the whole selection equals `[⌊i·(N−1)/(K−1)⌋]` with last
index `N−1` (for instance `N = 115, K = 48`), but float rounding can lose
the endpoint: at `N = 49, K = 48` the last index is `47 = N−2`, so the
claimed endpoint `N−1` fails for these scripts as well. -/
theorem C2_uniform_stride_formula (n k m : ℕ) (hk : 2 ≤ k) (hkn : k < n) :
    create_zhaoyeyushizi_indices m = (List.range 48).map (fun i => i * m / 48) ∧
    (create_zhaoyeyushizi_indices m).getD 0 99 = 0 ∧
    (create_zhaoyeyushizi_indices m).getD 47 99 = 47 * m / 48 ∧
    (uniformSelectF64 n k).getD 0 99 = 0 ∧
    uniformSelectF64 115 48 = (List.range 48).map (fun i => i * 114 / 47) ∧
    (uniformSelectF64 115 48).getD 47 99 = 114 ∧
    (uniformSelectF64 49 48).getD 47 99 = 47 ∧
    (47 : ℕ) ≠ 49 - 1 := by
  refine ⟨rfl, ?_, ?_, ?_, by decide, by decide, by decide, by decide⟩
  · rw [show create_zhaoyeyushizi_indices m = stride48Select m from rfl]
    unfold stride48Select
    rw [getD_map_range _ _ _ _ (by norm_num)]
    simp
  · rw [show create_zhaoyeyushizi_indices m = stride48Select m from rfl]
    unfold stride48Select
    rw [getD_map_range _ _ _ _ (by norm_num)]
  · unfold uniformSelectF64
    rw [if_neg (not_le.mpr hkn), getD_map_range _ _ _ _ (by omega)]
    simp [fl64, f64toInt]

theorem C2_witness :
    (2 ≤ 48 ∧ 48 < 189) ∧
    (create_zhaoyeyushizi_indices 189 =
        (List.range 48).map (fun i => i * 189 / 48) ∧
      (create_zhaoyeyushizi_indices 189).getD 0 99 = 0 ∧
      (create_zhaoyeyushizi_indices 189).getD 47 99 = 47 * 189 / 48 ∧
      (uniformSelectF64 189 48).getD 0 99 = 0 ∧
      uniformSelectF64 115 48 = (List.range 48).map (fun i => i * 114 / 47) ∧
      (uniformSelectF64 115 48).getD 47 99 = 114 ∧
      (uniformSelectF64 49 48).getD 47 99 = 47 ∧
      (47 : ℕ) ≠ 49 - 1) :=
  ⟨⟨by norm_num, by norm_num⟩,
    C2_uniform_stride_formula 189 48 189 (by norm_num) (by norm_num)⟩

/-- C2 counterexample: `create_zhaoyeyushizi_sprite` over `N = 189`
frames selects last index `⌊47·189/48⌋ = 185 ≠ 188 = N−1`, and the whole
list differs from the claimed `⌊i·(N−1)/(K−1)⌋` selection. -/
theorem C2_counterexample :
    (create_zhaoyeyushizi_indices 189).getD 47 0 = 185 ∧
    (185 : ℕ) ≠ 189 - 1 ∧
    create_zhaoyeyushizi_indices 189 ≠
      (List.range 48).map (fun i => i * (189 - 1) / (48 - 1)) := by
  refine ⟨by decide, by decide, by decide⟩

/-- C8: whenever the available frame count `N` is at most the target `K`,
the guarded uniform selector returns the full index list `[0, N)` (every
available index, in order) instead of failing; in particular this holds
for both bailongma scripts. -/
theorem C8_degenerate_full_range (n k : ℕ) (h : n ≤ k) :
    uniformSelect n k = List.range n ∧
    (uniformSelect n k).length = n ∧
    (∀ i, i < n → (uniformSelect n k).getD i 0 = i) ∧
    (n ≤ 48 → create_sprite_48_frames_indices n = List.range n) ∧
    (n ≤ 80 → create_sprite_80_frames_2k_indices n = List.range n) := by
  have heq : uniformSelect n k = List.range n := by
    unfold uniformSelect
    rw [if_pos h]
  refine ⟨heq, by rw [heq]; simp, ?_, ?_, ?_⟩
  · intro i hi
    rw [heq, List.getD_eq_getElem?_getD]
    simp [List.getElem?_range, hi]
  · intro h48
    unfold create_sprite_48_frames_indices uniformSelect
    rw [if_pos h48]
  · intro h80
    unfold create_sprite_80_frames_2k_indices uniformSelect
    rw [if_pos h80]

theorem C8_witness :
    (30 ≤ 48) ∧
    (uniformSelect 30 48 = List.range 30 ∧
      (uniformSelect 30 48).length = 30 ∧
      (∀ i, i < 30 → (uniformSelect 30 48).getD i 0 = i) ∧
      (30 ≤ 48 → create_sprite_48_frames_indices 30 = List.range 30) ∧
      (30 ≤ 80 → create_sprite_80_frames_2k_indices 30 = List.range 30)) :=
  ⟨by norm_num, C8_degenerate_full_range 30 48 (by norm_num)⟩

lemma le_foldr_max (l : List ℕ) (x : ℕ) (h : x ∈ l) : x ≤ l.foldr max 0 := by
  induction l with
  | nil => cases h
  | cons a t ih =>
      rcases List.mem_cons.mp h with rfl | ht
      · exact le_max_left _ _
      · exact le_trans (ih ht) (le_max_right _ _)

lemma length_le_one_of_nodup_const {α : Type} (l : List α) (s : α)
    (hn : l.Nodup) (h : ∀ x ∈ l, x = s) : l.length ≤ 1 := by
  match l with
  | [] => simp
  | [a] => simp
  | a :: b :: t =>
      exfalso
      have ha := h a (by simp)
      have hb := h b (by simp)
      rw [List.nodup_cons] at hn
      exact hn.1 (by simp [ha, hb])

lemma not_heterogeneous_of_uniform (images : List Img) (s : ℕ × ℕ)
    (h : ∀ im ∈ images, (im.w, im.h) = s) : ¬ heterogeneous images := by
  unfold heterogeneous
  have hle : ((images.map fun im => (im.w, im.h)).dedup).length ≤ 1 := by
    apply length_le_one_of_nodup_const _ s (List.nodup_dedup _)
    intro x hx
    rcases List.mem_map.mp (List.mem_dedup.mp hx) with ⟨im, him, rfl⟩
    exact h im him
  omega

lemma headI_mem_of_ne_nil {α : Type} [Inhabited α] (l : List α) (h : l ≠ []) :
    l.headI ∈ l := by
  cases l with
  | nil => exact absurd rfl h
  | cons a t => simp [List.headI]

lemma getD_map_of_lt {α β : Type} [Inhabited α] [Inhabited β]
    (f : α → β) (l : List α) (i : ℕ) (h : i < l.length) :
    (l.map f).getD i default = f (l.getD i default) := by
  rw [List.getD_eq_getElem _ _ (by simpa using h), List.getD_eq_getElem _ _ h,
    List.getElem_map]

/-- C1: for `K ≥ 1` equally sized frames, `C ≥ 1` columns and positive
cell size `(Wc, Hc)`, the packer allocates a transparent canvas of
exactly `(C·Wc) × (R·Hc)` with `R = ⌈K/C⌉` (characterised by
`K ≤ R·C < K + C`), pastes the `i`-th frame exactly at
`((i mod C)·Wc, (i div C)·Hc)`, and every grid cell of the last row that
receives no frame stays fully transparent. -/
theorem C1_atlas_packing (images : List Img) (fpr Wc Hc : ℕ)
    (hne : images ≠ []) (hfpr : 0 < fpr) (hW : 0 < Wc) (hH : 0 < Hc)
    (hsz : ∀ im ∈ images, im.w = Wc ∧ im.h = Hc) :
    (createSpriteSheet images fpr 0).w = Wc * fpr ∧
    (createSpriteSheet images fpr 0).h = Hc * gridRows images.length fpr ∧
    images.length ≤ gridRows images.length fpr * fpr ∧
    gridRows images.length fpr * fpr < images.length + fpr ∧
    (∀ i, i < images.length → ∀ u v, u < Wc → v < Hc →
      (createSpriteSheet images fpr 0).pix ((i % fpr) * Wc + u) ((i / fpr) * Hc + v) =
        (images.getD i default).pix u v) ∧
    (∀ c, images.length ≤ c → c < gridRows images.length fpr * fpr →
      ∀ u v, u < Wc → v < Hc →
      (createSpriteSheet images fpr 0).pix ((c % fpr) * Wc + u) ((c / fpr) * Hc + v) =
        Pixel.clear) := by
  have hprod : ∀ im ∈ images, (im.w, im.h) = (Wc, Hc) := by
    intro im him
    rcases hsz im him with ⟨h1, h2⟩
    rw [h1, h2]
  have hhet := not_heterogeneous_of_uniform images (Wc, Hc) hprod
  have hadj : adjustSizes images = images := by
    unfold adjustSizes
    rw [if_neg hhet]
  have hdims : frameDims images = (Wc, Hc) := by
    unfold frameDims
    rw [if_neg hhet]
    exact hprod images.headI (headI_mem_of_ne_nil images hne)
  have hcs : createSpriteSheet images fpr 0 =
      packLoop pasteNoMask fpr Wc Hc 0
        (Img.new (Wc * fpr) (Hc * gridRows images.length fpr)) images := by
    unfold createSpriteSheet
    rw [hadj, hdims]
    norm_num
  have hszD : ∀ k, k < images.length →
      (images.getD k default).w = Wc ∧ (images.getD k default).h = Hc := by
    intro k hk
    refine hsz _ ?_
    rw [List.getD_eq_getElem _ _ hk]
    exact List.getElem_mem _
  have hdim := packLoop_dims pasteNoMask fpr Wc Hc
    (fun _ _ _ _ => rfl) (fun _ _ _ _ => rfl) images 0
    (Img.new (Wc * fpr) (Hc * gridRows images.length fpr))
  have hceil : images.length ≤ gridRows images.length fpr * fpr ∧
      gridRows images.length fpr * fpr < images.length + fpr := by
    have hdm := Nat.div_add_mod' (images.length + fpr - 1) fpr
    have hml : (images.length + fpr - 1) % fpr < fpr :=
      Nat.mod_lt _ hfpr
    have hlen : 0 < images.length := List.length_pos.mpr hne
    unfold gridRows
    omega
  refine ⟨by rw [hcs]; exact hdim.1, by rw [hcs]; exact hdim.2,
    hceil.1, hceil.2, ?_, ?_⟩
  · intro i hi u v hu hv
    rw [hcs]
    rw [packLoop_pix_hit pasteNoMask fpr Wc Hc
      (fun src x0 y0 _ px py => src.pix (px - x0) (py - y0))
      pasteNoMask_pix_out pasteNoMask_pix_in
      images 0 _ ((i % fpr) * Wc + u) ((i / fpr) * Hc + v) i
      (Nat.zero_le i) (by simpa using hi) ?_ ?_]
    · simp only [Nat.sub_zero, Nat.add_sub_cancel_left]
    · simp only [Nat.sub_zero]
      rw [(hszD i hi).1, (hszD i hi).2]
      exact (cell_inRect_iff fpr Wc Hc hW hH i i u v hu hv).mpr rfl
    · intro k hk hkin
      simp only [Nat.zero_add] at hkin ⊢
      rw [(hszD k hk).1, (hszD k hk).2] at hkin
      exact (cell_inRect_iff fpr Wc Hc hW hH i k u v hu hv).mp hkin
  · intro c hc1 hc2 u v hu hv
    rw [hcs]
    rw [packLoop_pix_out pasteNoMask fpr Wc Hc pasteNoMask_pix_out
      images 0 _ _ _ ?_]
    · rfl
    · intro k hk hkin
      simp only [Nat.zero_add] at hkin
      rw [(hszD k hk).1, (hszD k hk).2] at hkin
      have := (cell_inRect_iff fpr Wc Hc hW hH c k u v hu hv).mp hkin
      omega

theorem C1_witness :
    (([⟨1, 1, fun _ _ => Pixel.clear⟩] : List Img) ≠ [] ∧
      0 < 1 ∧ (∀ im ∈ ([⟨1, 1, fun _ _ => Pixel.clear⟩] : List Img),
        im.w = 1 ∧ im.h = 1)) ∧
    (createSpriteSheet [⟨1, 1, fun _ _ => Pixel.clear⟩] 1 0).pix
        ((0 % 1) * 1 + 0) ((0 / 1) * 1 + 0) =
      (([⟨1, 1, fun _ _ => Pixel.clear⟩] : List Img).getD 0 default).pix 0 0 :=
  ⟨⟨by simp, by norm_num, by intro im him; simp at him; simp [him]⟩,
    (C1_atlas_packing [⟨1, 1, fun _ _ => Pixel.clear⟩] 1 1 1
      (by simp) (by norm_num) (by norm_num) (by norm_num)
      (by intro im him; simp at him; simp [him])).2.2.2.2.1
      0 (by simp) 0 0 (by norm_num) (by norm_num)⟩

/-- C9: when the loaded frames do not all share one size, every frame of
size `(w, h)` is composited at offset `((maxW−w) div 2, (maxH−h) div 2)`
onto a fully transparent canvas of the elementwise-maximum dimensions,
and frames already of the maximal size pass through unchanged. -/
theorem C9_letterbox_centering (images : List Img) (hhet : heterogeneous images) :
    (adjustSizes images).length = images.length ∧
    ∀ i, i < images.length →
      (images.getD i default).w ≤ maxW images ∧
      (images.getD i default).h ≤ maxH images ∧
      (((images.getD i default).w, (images.getD i default).h) =
          (maxW images, maxH images) →
        (adjustSizes images).getD i default = images.getD i default) ∧
      (((images.getD i default).w, (images.getD i default).h) ≠
          (maxW images, maxH images) →
        ((adjustSizes images).getD i default).w = maxW images ∧
        ((adjustSizes images).getD i default).h = maxH images ∧
        ∀ x y, ((adjustSizes images).getD i default).pix x y =
          if inRect x y ((maxW images - (images.getD i default).w) / 2)
              ((maxH images - (images.getD i default).h) / 2)
              (images.getD i default).w (images.getD i default).h then
            (images.getD i default).pix
              (x - (maxW images - (images.getD i default).w) / 2)
              (y - (maxH images - (images.getD i default).h) / 2)
          else Pixel.clear) := by
  have hadj : adjustSizes images = images.map fun im =>
      if (im.w, im.h) ≠ (maxW images, maxH images) then
        centerPad (maxW images) (maxH images) im
      else im := by
    unfold adjustSizes
    rw [if_pos hhet]
  constructor
  · rw [hadj, List.length_map]
  · intro i hi
    have hmem : images.getD i default ∈ images := by
      rw [List.getD_eq_getElem _ _ hi]
      exact List.getElem_mem _
    have hgd : (adjustSizes images).getD i default =
        (fun im => if (im.w, im.h) ≠ (maxW images, maxH images) then
          centerPad (maxW images) (maxH images) im else im)
          (images.getD i default) := by
      rw [hadj, getD_map_of_lt _ _ _ hi]
    refine ⟨?_, ?_, ?_, ?_⟩
    · exact le_foldr_max _ _ (List.mem_map_of_mem Img.w hmem)
    · exact le_foldr_max _ _ (List.mem_map_of_mem Img.h hmem)
    · intro hmax
      rw [hgd]
      simp only [hmax, ne_eq, not_true_eq_false, if_false]
    · intro hmax
      rw [hgd]
      simp only [ne_eq, hmax, not_false_iff, if_true]
      refine ⟨rfl, rfl, ?_⟩
      intro x y
      simp only [centerPad, pasteNoMask, Img.new]

theorem C9_witness :
    heterogeneous [⟨1, 1, fun _ _ => Pixel.clear⟩, ⟨2, 1, fun _ _ => Pixel.clear⟩] ∧
    (adjustSizes
        [⟨1, 1, fun _ _ => Pixel.clear⟩, ⟨2, 1, fun _ _ => Pixel.clear⟩]).length =
      ([⟨1, 1, fun _ _ => Pixel.clear⟩, ⟨2, 1, fun _ _ => Pixel.clear⟩] : List Img).length :=
  ⟨by decide,
    (C9_letterbox_centering
      [⟨1, 1, fun _ _ => Pixel.clear⟩, ⟨2, 1, fun _ _ => Pixel.clear⟩]
      (by decide)).1⟩

/-- C7 counterexample: `create_sprite_sheet` pastes without a mask.  A
single 1×1 frame whose only pixel is fully transparent red
`(255, 0, 0, 0)` overwrites the transparent canvas pixel with
`(255, 0, 0, 0)`, whereas an alpha-masked paste (as the claim asserts)
would have left the canvas pixel `(0, 0, 0, 0)` untouched. -/
theorem C7_counterexample :
    (createSpriteSheet [⟨1, 1, fun _ _ => (⟨255, 0, 0, 0⟩ : Pixel)⟩] 1 0).pix 0 0 =
      (⟨255, 0, 0, 0⟩ : Pixel) ∧
    (pasteMasked (Img.new 1 1) ⟨1, 1, fun _ _ => (⟨255, 0, 0, 0⟩ : Pixel)⟩ 0 0).pix 0 0 =
      Pixel.clear ∧
    ((⟨255, 0, 0, 0⟩ : Pixel) ≠ Pixel.clear) := by
  refine ⟨by decide, by decide, by decide⟩

/-- C7 (amended): only `create_smooth_sprite` pastes with the source's
alpha as mask — there a fully transparent source pixel leaves the canvas
pixel untouched.  `create_sprite_sheet` and `create_sprite_48_frames`
paste without a mask, copying all four channels; their grid cells are
pairwise disjoint, so no pixel of a previously pasted frame is ever
overwritten: each cell of the finished atlas holds exactly the result of
its own single paste. -/
theorem C7_amended_paste_semantics (resample : ℕ → ℕ → Img → Img)
    (frames frames48 : List Img) (fw fh : ℕ)
    (hres : ∀ f : Img, (resample 1536 870 f).w = 1536 ∧ (resample 1536 870 f).h = 870)
    (hfw : 0 < fw) (hfh : 0 < fh) (hne48 : frames48 ≠ [])
    (hsz48 : ∀ f ∈ frames48, f.w = fw ∧ f.h = fh) :
    (∀ i, i < frames.length → ∀ u v, u < 1536 → v < 870 →
      (create_smooth_sprite resample frames).pix
          ((i % 6) * 1536 + u) ((i / 6) * 870 + v) =
        blendPixel ((resample 1536 870 (frames.getD i default)).pix u v) Pixel.clear ∧
      (((resample 1536 870 (frames.getD i default)).pix u v).a = 0 →
        (create_smooth_sprite resample frames).pix
            ((i % 6) * 1536 + u) ((i / 6) * 870 + v) = Pixel.clear)) ∧
    (∀ i, i < frames48.length → ∀ u v, u < fw → v < fh →
      (createSprite48Pack frames48).pix ((i % 8) * fw + u) ((i / 8) * fh + v) =
        (frames48.getD i default).pix u v) := by
  constructor
  · intro i hi u v hu hv
    have hlen : (frames.map (resample 1536 870)).length = frames.length := by simp
    have hgd : ∀ k, k < frames.length →
        (frames.map (resample 1536 870)).getD k default =
          resample 1536 870 (frames.getD k default) := by
      intro k hk
      exact getD_map_of_lt _ _ _ hk
    have hmain : (create_smooth_sprite resample frames).pix
        ((i % 6) * 1536 + u) ((i / 6) * 870 + v) =
        blendPixel ((resample 1536 870 (frames.getD i default)).pix u v)
          Pixel.clear := by
      unfold create_smooth_sprite
      rw [packLoop_pix_hit pasteMasked 6 1536 870
        (fun src x0 y0 d px py => blendPixel (src.pix (px - x0) (py - y0)) d)
        pasteMasked_pix_out pasteMasked_pix_in
        (frames.map (resample 1536 870)) 0 _
        ((i % 6) * 1536 + u) ((i / 6) * 870 + v) i
        (Nat.zero_le i) (by simpa [hlen] using hi) ?_ ?_]
      · simp only [Nat.sub_zero, Nat.add_sub_cancel_left, hgd i hi]
        rfl
      · simp only [Nat.sub_zero, hgd i hi, (hres _).1, (hres _).2]
        exact (cell_inRect_iff 6 1536 870 (by norm_num) (by norm_num)
          i i u v hu hv).mpr rfl
      · intro k hk hkin
        rw [hlen] at hk
        simp only [Nat.zero_add, hgd k hk, (hres _).1, (hres _).2] at hkin
        simpa using (cell_inRect_iff 6 1536 870 (by norm_num) (by norm_num)
          i k u v hu hv).mp hkin
    refine ⟨hmain, ?_⟩
    intro ha
    rw [hmain]
    exact blendPixel_clear_of_alpha_zero _ ha
  · intro i hi u v hu hv
    have hszD : ∀ k, k < frames48.length →
        (frames48.getD k default).w = fw ∧ (frames48.getD k default).h = fh := by
      intro k hk
      refine hsz48 _ ?_
      rw [List.getD_eq_getElem _ _ hk]
      exact List.getElem_mem _
    have hhead : frames48.headI.w = fw ∧ frames48.headI.h = fh :=
      hsz48 _ (headI_mem_of_ne_nil frames48 hne48)
    unfold createSprite48Pack
    rw [hhead.1, hhead.2]
    rw [packLoop_pix_hit pasteNoMask 8 fw fh
      (fun src x0 y0 _ px py => src.pix (px - x0) (py - y0))
      pasteNoMask_pix_out pasteNoMask_pix_in
      frames48 0 _ ((i % 8) * fw + u) ((i / 8) * fh + v) i
      (Nat.zero_le i) (by simpa using hi) ?_ ?_]
    · simp only [Nat.sub_zero, Nat.add_sub_cancel_left]
    · simp only [Nat.sub_zero]
      rw [(hszD i hi).1, (hszD i hi).2]
      exact (cell_inRect_iff 8 fw fh hfw hfh i i u v hu hv).mpr rfl
    · intro k hk hkin
      simp only [Nat.zero_add] at hkin ⊢
      rw [(hszD k hk).1, (hszD k hk).2] at hkin
      exact (cell_inRect_iff 8 fw fh hfw hfh i k u v hu hv).mp hkin

theorem C7_amended_witness :
    ((∀ f : Img, ((fun _ _ im => im : ℕ → ℕ → Img → Img) 1536 870 f).w = 1536 ∧
        ((fun _ _ im => im : ℕ → ℕ → Img → Img) 1536 870 f).h = 870) → True) ∧
    (createSprite48Pack [⟨1, 1, fun _ _ => (⟨7, 7, 7, 255⟩ : Pixel)⟩]).pix
        ((0 % 8) * 1 + 0) ((0 / 8) * 1 + 0) =
      (([⟨1, 1, fun _ _ => (⟨7, 7, 7, 255⟩ : Pixel)⟩] : List Img).getD 0 default).pix 0 0 :=
  ⟨fun _ => trivial,
    (C7_amended_paste_semantics
      (fun _ _ im => ⟨1536, 870, im.pix⟩) []
      [⟨1, 1, fun _ _ => (⟨7, 7, 7, 255⟩ : Pixel)⟩] 1 1
      (fun _ => ⟨rfl, rfl⟩) (by norm_num) (by norm_num) (by simp)
      (by intro f hf; simp at hf; simp [hf])).2
      0 (by simp) 0 0 (by norm_num) (by norm_num)⟩

namespace OptimizeSpriteV2

lemma crop_w (im : Img) (x0 y0 w h : ℕ) :
    (crop im x0 y0 (x0 + w) (y0 + h)).w = w := by
  simp [crop]

lemma crop_h (im : Img) (x0 y0 w h : ℕ) :
    (crop im x0 y0 (x0 + w) (y0 + h)).h = h := by
  simp [crop]

lemma loop_dims (img : Img) :
    ∀ (l : List ℕ) (fidx : ℕ) (cv : Img),
      (loop img l fidx cv).w = cv.w ∧ (loop img l fidx cv).h = cv.h := by
  intro l
  induction l with
  | nil => intro fidx cv; simp [loop]
  | cons i rest ih =>
      intro fidx cv
      simp only [loop]
      by_cases hg : 48 ≤ fidx
      · rw [if_pos hg]; exact ⟨rfl, rfl⟩
      · rw [if_neg hg]
        rcases ih (fidx + 1) _ with ⟨h1, h2⟩
        exact ⟨h1, h2⟩

lemma loop_pix_out (img : Img) :
    ∀ (l : List ℕ) (fidx : ℕ) (cv : Img) (px py : ℕ),
      (∀ k, k < l.length →
        ¬ inRect px py (((fidx + k) % 8) * 960) (((fidx + k) / 8) * 544) 960 544) →
      (loop img l fidx cv).pix px py = cv.pix px py := by
  intro l
  induction l with
  | nil => intro fidx cv px py _; simp [loop]
  | cons i rest ih =>
      intro fidx cv px py hnone
      simp only [loop]
      by_cases hg : 48 ≤ fidx
      · rw [if_pos hg]
      · rw [if_neg hg]
        rw [ih (fidx + 1) _ px py ?_]
        · apply pasteNoMask_pix_out
          rw [crop_w, crop_h]
          have := hnone 0 (by simp)
          simpa using this
        · intro k hk
          have := hnone (k + 1) (by simpa using Nat.succ_lt_succ hk)
          simpa [Nat.add_assoc, Nat.add_comm 1 k, Nat.add_left_comm] using this

lemma loop_pix_hit (img : Img) :
    ∀ (l : List ℕ) (fidx : ℕ) (cv : Img) (px py t : ℕ),
      fidx ≤ t → t < fidx + l.length → t < 48 →
      inRect px py ((t % 8) * 960) ((t / 8) * 544) 960 544 →
      (∀ k, k < l.length →
        inRect px py (((fidx + k) % 8) * 960) (((fidx + k) / 8) * 544) 960 544 →
        fidx + k = t) →
      (loop img l fidx cv).pix px py =
        (crop img ((l.getD (t - fidx) 0 % 16) * 960) ((l.getD (t - fidx) 0 / 16) * 544)
            ((l.getD (t - fidx) 0 % 16) * 960 + 960) ((l.getD (t - fidx) 0 / 16) * 544 + 544)).pix
          (px - (t % 8) * 960) (py - (t / 8) * 544) := by
  intro l
  induction l with
  | nil => intro fidx cv px py t h1 h2 _ _ _; simp at h2; omega
  | cons i rest ih =>
      intro fidx cv px py t hle hlt h48 hhit huniq
      simp only [loop]
      rw [if_neg (by omega : ¬ 48 ≤ fidx)]
      rcases Nat.eq_or_lt_of_le hle with heq | hgt
      · subst heq
        simp only [Nat.sub_self, List.getD_cons_zero]
        rw [loop_pix_out img rest (fidx + 1) _ px py ?_]
        · apply pasteNoMask_pix_in
          rw [crop_w, crop_h]
          exact hhit
        · intro k hk hkin
          have := huniq (k + 1) (by simpa using Nat.succ_lt_succ hk)
            (by simpa [Nat.add_assoc, Nat.add_comm 1 k, Nat.add_left_comm] using hkin)
          omega
      · have hne : ¬ inRect px py ((fidx % 8) * 960) ((fidx / 8) * 544) 960 544 := by
          intro hcon
          have := huniq 0 (by simp) (by simpa using hcon)
          omega
        have hts : t - fidx = (t - (fidx + 1)) + 1 := by omega
        rw [ih (fidx + 1) _ px py t hgt (by simp at hlt ⊢; omega) h48 hhit ?_]
        · rw [hts, List.getD_cons_succ]
        · intro k hk hkin
          have := huniq (k + 1) (by simpa using Nat.succ_lt_succ hk)
            (by simpa [Nat.add_assoc, Nat.add_comm 1 k, Nat.add_left_comm] using hkin)
          omega

end OptimizeSpriteV2

/-- C10: on a 15360×6528 input atlas (16 columns of 960×544 cells), the
re-tiled output is 7680×3264 (8 columns of 960×544 cells) and, for every
output frame index `j < 48`, the output cell at `(j mod 8, j div 8)` is
pixel-for-pixel the input cell of frame index `4·j` under the 16-column
layout; in particular only multiples of 4 contribute and each output cell
is the result of exactly one paste. -/
theorem C10_optimize_sprite_retile (img : Img)
    (hw : img.w = 15360) (hh : img.h = 6528) :
    (OptimizeSpriteV2.optimize_sprite img).w = 7680 ∧
    (OptimizeSpriteV2.optimize_sprite img).h = 3264 ∧
    ∀ j, j < 48 → ∀ u v, u < 960 → v < 544 →
      (OptimizeSpriteV2.optimize_sprite img).pix
          ((j % 8) * 960 + u) ((j / 8) * 544 + v) =
        img.pix ((4 * j % 16) * 960 + u) ((4 * j / 16) * 544 + v) := by
  unfold OptimizeSpriteV2.optimize_sprite
  have hdims := OptimizeSpriteV2.loop_dims img
    ((List.range 48).map (· * 4)) 0 (Img.new (960 * 8) (544 * 6))
  refine ⟨by rw [hdims.1]; rfl, by rw [hdims.2]; rfl, ?_⟩
  intro j hj u v hu hv
  have hgd : ((List.range 48).map (· * 4)).getD j 0 = j * 4 := by
    rw [List.getD_eq_getElem _ _ (by simpa using hj), List.getElem_map,
      List.getElem_range]
  rw [OptimizeSpriteV2.loop_pix_hit img ((List.range 48).map (· * 4)) 0 _
    ((j % 8) * 960 + u) ((j / 8) * 544 + v) j (Nat.zero_le j)
    (by simpa using hj) hj
    ((cell_inRect_iff 8 960 544 (by norm_num) (by norm_num) j j u v hu hv).mpr rfl)
    ?_]
  · simp only [Nat.sub_zero, hgd, Nat.add_sub_cancel_left]
    have h1 : j * 4 % 16 < 16 := Nat.mod_lt _ (by norm_num)
    have h2 : j * 4 / 16 ≤ 11 := by
      have h3 : j * 4 ≤ 188 := by omega
      calc j * 4 / 16 ≤ 188 / 16 := Nat.div_le_div_right h3
        _ = 11 := by norm_num
    have hcond : (j * 4 % 16) * 960 + u < img.w ∧
        (j * 4 / 16) * 544 + v < img.h := by
      rw [hw, hh]
      constructor <;> omega
    show (if (j * 4 % 16) * 960 + u < img.w ∧ (j * 4 / 16) * 544 + v < img.h
        then img.pix ((j * 4 % 16) * 960 + u) ((j * 4 / 16) * 544 + v)
        else Pixel.clear) =
      img.pix ((4 * j % 16) * 960 + u) ((4 * j / 16) * 544 + v)
    rw [if_pos hcond, Nat.mul_comm j 4]
  · intro k hk hkin
    simp only [List.length_map, List.length_range] at hk
    simp only [Nat.zero_add] at hkin ⊢
    exact (cell_inRect_iff 8 960 544 (by norm_num) (by norm_num) j k u v hu hv).mp hkin

theorem C10_witness :
    ((⟨15360, 6528, fun _ _ => Pixel.clear⟩ : Img).w = 15360 ∧
      (⟨15360, 6528, fun _ _ => Pixel.clear⟩ : Img).h = 6528) ∧
    (OptimizeSpriteV2.optimize_sprite ⟨15360, 6528, fun _ _ => Pixel.clear⟩).w = 7680 :=
  ⟨⟨rfl, rfl⟩,
    (C10_optimize_sprite_retile ⟨15360, 6528, fun _ _ => Pixel.clear⟩ rfl rfl).1⟩

lemma windowSum_nonneg (k : ℕ) (d : List ℚ) (hpos : ∀ x ∈ d, 0 ≤ x) (i : ℕ) :
    0 ≤ windowSum k d i := by
  apply List.sum_nonneg
  intro x hx
  exact hpos x (List.mem_of_mem_drop (List.mem_of_mem_take hx))

lemma bestStartState_spec (k : ℕ) (d : List ℚ) (hpos : ∀ x ∈ d, 0 ≤ x) :
    ∀ m, 0 < m →
      (bestStartState k d m).2 < m ∧
      (bestStartState k d m).1 = windowSum k d (bestStartState k d m).2 ∧
      (∀ j, j < m → windowSum k d j ≤ (bestStartState k d m).1) ∧
      (∀ j, j < m → windowSum k d j = (bestStartState k d m).1 →
        (bestStartState k d m).2 ≤ j) := by
  intro m
  induction m with
  | zero => intro h; omega
  | succ m ih =>
      intro _
      by_cases hm : m = 0
      · subst hm
        have h0 := windowSum_nonneg k d hpos 0
        have hbase : bestStartState k d 1 =
            if (0:ℚ) < windowSum k d 0 then (windowSum k d 0, 0) else ((0:ℚ), 0) := by
          unfold bestStartState
          rw [List.range_succ, List.range_zero, List.nil_append,
            List.foldl_cons, List.foldl_nil]
        rw [hbase]
        by_cases hlt : (0:ℚ) < windowSum k d 0
        · rw [if_pos hlt]
          refine ⟨by norm_num, rfl, ?_, ?_⟩
          · intro j hj
            interval_cases j
            exact le_refl _
          · intro j hj _
            omega
        · rw [if_neg hlt]
          have heq : windowSum k d 0 = 0 := le_antisymm (not_lt.mp hlt) h0
          refine ⟨by norm_num, heq.symm, ?_, ?_⟩
          · intro j hj
            interval_cases j
            simp [heq]
          · intro j hj _
            omega
      · have hmpos : 0 < m := Nat.pos_of_ne_zero hm
        rcases ih hmpos with ⟨ih1, ih2, ih3, ih4⟩
        have hstep : bestStartState k d (m + 1) =
            if (bestStartState k d m).1 < windowSum k d m
            then (windowSum k d m, m) else bestStartState k d m := by
          unfold bestStartState
          rw [List.range_succ, List.foldl_append, List.foldl_cons, List.foldl_nil]
        by_cases hlt : (bestStartState k d m).1 < windowSum k d m
        · rw [hstep, if_pos hlt]
          refine ⟨by omega, rfl, ?_, ?_⟩
          · intro j hj
            rcases Nat.lt_succ_iff_lt_or_eq.mp hj with hj2 | rfl
            · exact le_of_lt (lt_of_le_of_lt (ih3 j hj2) hlt)
            · exact le_refl _
          · intro j hj hje
            rcases Nat.lt_succ_iff_lt_or_eq.mp hj with hj2 | rfl
            · exfalso
              have := lt_of_le_of_lt (ih3 j hj2) hlt
              rw [hje] at this
              exact lt_irrefl _ this
            · exact le_refl _
        · rw [hstep, if_neg hlt]
          refine ⟨by omega, ih2, ?_, ?_⟩
          · intro j hj
            rcases Nat.lt_succ_iff_lt_or_eq.mp hj with hj2 | rfl
            · exact ih3 j hj2
            · exact not_lt.mp hlt
          · intro j hj hje
            rcases Nat.lt_succ_iff_lt_or_eq.mp hj with hj2 | rfl
            · exact ih4 j hj2 hje
            · omega

/-- C3 (amended): the scan of `extract_motion_cycle` covers only the
starts `0 ≤ a < len(D) − K`, omitting the final valid start
`len(D) − K`.  For every nonnegative difference signal with
`len(D) − K ≥ 1`, the returned start is, among the scanned starts, the
smallest one maximising the window sum, and the returned frames are
exactly the contiguous slice `[a, a+K)` of the frame list. -/
theorem C3_motion_window_amended {α : Type} [Inhabited α]
    (k : ℕ) (images : List α) (d : List ℚ)
    (hk : 0 < d.length - k) (hpos : ∀ x ∈ d, 0 ≤ x)
    (hlen : images.length = d.length + 1) :
    best_start k d < d.length - k ∧
    (∀ j, j < d.length - k →
      windowSum k d j ≤ windowSum k d (best_start k d)) ∧
    (∀ j, j < d.length - k →
      windowSum k d j = windowSum k d (best_start k d) → best_start k d ≤ j) ∧
    (extract_motion_cycle k images d).length = k ∧
    (∀ i, i < k → (extract_motion_cycle k images d).getD i default =
      images.getD (best_start k d + i) default) := by
  rcases bestStartState_spec k d hpos (d.length - k) hk with ⟨h1, h2, h3, h4⟩
  have hb : best_start k d < d.length - k := h1
  have hkd : best_start k d + k < images.length := by omega
  refine ⟨hb, ?_, ?_, ?_, ?_⟩
  · intro j hj
    have := h3 j hj
    rwa [h2] at this
  · intro j hj hje
    exact h4 j hj (by rwa [h2])
  · unfold extract_motion_cycle
    rw [List.length_take, List.length_drop]
    omega
  · intro i hi
    unfold extract_motion_cycle
    have hlt : i < ((images.drop (best_start k d)).take k).length := by
      rw [List.length_take, List.length_drop]
      omega
    rw [List.getD_eq_getElem _ _ hlt,
      List.getD_eq_getElem _ _ (by omega : best_start k d + i < images.length)]
    rw [List.getElem_take, List.getElem_drop]

/-- C3 counterexample: with `window_size = 48` and the difference signal
`D = [0, …, 0, 1]` (48 zeros then a 1, so `len(D) = 49`), the valid
window starts are `0` and `1`; the scan visits only start `0` and the
code returns `best_start = 0`, although start `1` has a strictly larger
window sum — the returned start does not maximise over every valid
start. -/
theorem C3_counterexample :
    best_start 48 (List.replicate 48 (0:ℚ) ++ [1]) = 0 ∧
    windowSum 48 (List.replicate 48 (0:ℚ) ++ [1]) 0 <
      windowSum 48 (List.replicate 48 (0:ℚ) ++ [1]) 1 ∧
    1 + 48 ≤ (List.replicate 48 (0:ℚ) ++ [1]).length := by
  have hws0 : windowSum 48 (List.replicate 48 (0:ℚ) ++ [1]) 0 = 0 := by
    unfold windowSum
    rw [List.drop_zero, List.take_left' (by simp), List.sum_replicate, smul_zero]
  have hws1 : windowSum 48 (List.replicate 48 (0:ℚ) ++ [1]) 1 = 1 := by
    unfold windowSum
    rw [List.drop_append_of_le_length (by simp),
      List.replicate_succ, List.drop_succ_cons, List.drop_zero]
    rw [List.take_of_length_le (by simp), List.sum_append, List.sum_replicate,
      smul_zero]
    simp
  refine ⟨?_, by rw [hws0, hws1]; norm_num, by simp⟩
  unfold best_start
  have hlen : (List.replicate 48 (0:ℚ) ++ [1]).length - 48 = 1 := by simp
  rw [hlen]
  have hbase : bestStartState 48 (List.replicate 48 (0:ℚ) ++ [1]) 1 =
      if (0:ℚ) < windowSum 48 (List.replicate 48 (0:ℚ) ++ [1]) 0
      then (windowSum 48 (List.replicate 48 (0:ℚ) ++ [1]) 0, 0) else ((0:ℚ), 0) := by
    unfold bestStartState
    rw [List.range_succ, List.range_zero, List.nil_append,
      List.foldl_cons, List.foldl_nil]
  rw [hbase, hws0, if_neg (lt_irrefl 0)]

theorem C3_witness :
    (0 < ([0, 1, 0] : List ℚ).length - 1 ∧
      (∀ x ∈ ([0, 1, 0] : List ℚ), 0 ≤ x) ∧
      ([10, 20, 30, 40] : List ℕ).length = ([0, 1, 0] : List ℚ).length + 1) ∧
    ((extract_motion_cycle 1 [10, 20, 30, 40] ([0, 1, 0] : List ℚ)).length = 1) :=
  ⟨⟨by norm_num, by intro x hx; fin_cases hx <;> norm_num, by norm_num⟩,
    (C3_motion_window_amended 1 [10, 20, 30, 40] ([0, 1, 0] : List ℚ)
      (by norm_num) (by intro x hx; fin_cases hx <;> norm_num)
      (by norm_num)).2.2.2.1⟩

lemma pixAbsDiff_le (p q : Pixel) (hp : pixLe255 p) (hq : pixLe255 q) :
    pixAbsDiff p q ≤ 1020 := by
  rcases hp with ⟨h1, h2, h3, h4⟩
  rcases hq with ⟨h5, h6, h7, h8⟩
  unfold pixAbsDiff Nat.dist
  omega

lemma meanAbsDiff_nonneg (im1 im2 : Img) : 0 ≤ meanAbsDiff im1 im2 := by
  unfold meanAbsDiff
  positivity

lemma meanAbsDiff_le_255 (im1 im2 : Img) (hw : 0 < im1.w) (hh : 0 < im1.h)
    (hb1 : ∀ x y, pixLe255 (im1.pix x y)) (hb2 : ∀ x y, pixLe255 (im2.pix x y)) :
    meanAbsDiff im1 im2 ≤ 255 := by
  have hsum : sumAbsDiff im1 im2 ≤ im1.w * (im1.h * 1020) := by
    unfold sumAbsDiff
    calc (Finset.range im1.w).sum (fun x =>
            (Finset.range im1.h).sum fun y => pixAbsDiff (im1.pix x y) (im2.pix x y))
        ≤ (Finset.range im1.w).sum (fun _ => (Finset.range im1.h).sum fun _ => 1020) := by
          apply Finset.sum_le_sum
          intro x _
          apply Finset.sum_le_sum
          intro y _
          exact pixAbsDiff_le _ _ (hb1 x y) (hb2 x y)
      _ = im1.w * (im1.h * 1020) := by
          simp [Finset.sum_const, Finset.card_range, Nat.smul_one_eq_cast]
  unfold meanAbsDiff
  rw [div_le_iff₀ (by positivity)]
  calc (sumAbsDiff im1 im2 : ℚ) ≤ ((im1.w * (im1.h * 1020) : ℕ) : ℚ) := by
        exact_mod_cast hsum
    _ = 255 * ((im1.w : ℚ) * (im1.h : ℚ) * 4) := by push_cast; ring

/-- C5 (amended): the two repository implementations of the inter-frame
difference are not the same function: `analyze_frames` computes the mean
absolute per-channel difference of the downscaled 192×108
representations, while `optimize_frames` computes it on the
native-resolution frames with no downscale.  For same-size frames with
8-bit channels both values lie in `[0, 255]`. -/
theorem C5_amended_frame_difference (im1 im2 : Img)
    (hw : 0 < im1.w) (hh : 0 < im1.h)
    (hb1 : ∀ x y, pixLe255 (im1.pix x y)) (hb2 : ∀ x y, pixLe255 (im2.pix x y)) :
    OptimizeFrames.calculate_frame_difference im1 im2 = meanAbsDiff im1 im2 ∧
    AnalyzeFrames.calculate_frame_difference im1 im2 =
      OptimizeFrames.calculate_frame_difference
        (resize192x108 im1) (resize192x108 im2) ∧
    0 ≤ OptimizeFrames.calculate_frame_difference im1 im2 ∧
    OptimizeFrames.calculate_frame_difference im1 im2 ≤ 255 ∧
    0 ≤ AnalyzeFrames.calculate_frame_difference im1 im2 ∧
    AnalyzeFrames.calculate_frame_difference im1 im2 ≤ 255 := by
  refine ⟨rfl, rfl, meanAbsDiff_nonneg _ _, ?_, meanAbsDiff_nonneg _ _, ?_⟩
  · exact meanAbsDiff_le_255 im1 im2 hw hh hb1 hb2
  · apply meanAbsDiff_le_255
    · show (0:ℕ) < 192
      norm_num
    · show (0:ℕ) < 108
      norm_num
    · intro x y
      exact hb1 _ _
    · intro x y
      exact hb2 _ _

theorem C5_witness :
    (0 < blackFrame.w ∧ 0 < blackFrame.h ∧
      (∀ x y, pixLe255 (blackFrame.pix x y)) ∧
      (∀ x y, pixLe255 (topRowWhiteFrame.pix x y))) ∧
    OptimizeFrames.calculate_frame_difference blackFrame topRowWhiteFrame ≤ 255 :=
  ⟨⟨by norm_num [blackFrame], by norm_num [blackFrame],
    by intro x y; simp [blackFrame, pixLe255],
    by
      intro x y
      simp only [topRowWhiteFrame]
      by_cases hy : y = 0 <;> simp [hy, pixLe255]⟩,
    (C5_amended_frame_difference blackFrame topRowWhiteFrame
      (by norm_num [blackFrame]) (by norm_num [blackFrame])
      (by intro x y; simp [blackFrame, pixLe255])
      (by
        intro x y
        simp only [topRowWhiteFrame]
        by_cases hy : y = 0 <;> simp [hy, pixLe255])).2.2.2.1⟩

/-- C5 counterexample: on a concrete 1×5 frame pair, the `optimize_frames`
difference is `51` while the mean over the downscaled 192×108
representations is `935/18 ≈ 51.94`; the two cited implementations do not
compute the same function of the two frames, refuting the claim that
every implementation applies the 192×108 downscale. -/
theorem C5_counterexample :
    OptimizeFrames.calculate_frame_difference blackFrame topRowWhiteFrame = 51 ∧
    AnalyzeFrames.calculate_frame_difference blackFrame topRowWhiteFrame = 935 / 18 ∧
    (51 : ℚ) ≠ 935 / 18 := by
  have h1 : sumAbsDiff blackFrame topRowWhiteFrame = 1020 := by decide
  have h2 : sumAbsDiff (resize192x108 blackFrame) (resize192x108 topRowWhiteFrame) =
      192 * 22440 := by
    unfold sumAbsDiff
    have hinner : ∀ x : ℕ,
        (Finset.sum (Finset.range (resize192x108 blackFrame).h) fun y =>
          pixAbsDiff ((resize192x108 blackFrame).pix x y)
            ((resize192x108 topRowWhiteFrame).pix x y)) = 22440 := by
      intro x
      show (Finset.sum (Finset.range 108) fun y =>
        pixAbsDiff ⟨0, 0, 0, 0⟩
          (if y * 5 / 108 = 0 then ⟨255, 255, 255, 255⟩ else ⟨0, 0, 0, 0⟩)) = 22440
      decide
    calc (Finset.sum (Finset.range (resize192x108 blackFrame).w) fun x =>
          Finset.sum (Finset.range (resize192x108 blackFrame).h) fun y =>
            pixAbsDiff ((resize192x108 blackFrame).pix x y)
              ((resize192x108 topRowWhiteFrame).pix x y))
        = Finset.sum (Finset.range 192) fun _ => 22440 := by
          apply Finset.sum_congr rfl
          intro x _
          exact hinner x
      _ = 192 * 22440 := by
          simp [Finset.sum_const, Finset.card_range]
  refine ⟨?_, ?_, by norm_num⟩
  · unfold OptimizeFrames.calculate_frame_difference meanAbsDiff
    rw [h1]
    show ((1020 : ℕ) : ℚ) / (((1:ℕ) : ℚ) * ((5:ℕ) : ℚ) * 4) = 51
    norm_num
  · unfold AnalyzeFrames.calculate_frame_difference meanAbsDiff
    rw [h2]
    show ((192 * 22440 : ℕ) : ℚ) / (((192:ℕ) : ℚ) * ((108:ℕ) : ℚ) * 4) = 935 / 18
    norm_num

lemma mem_pausedFrames (d : List ℚ) (i : ℕ) :
    i ∈ pausedFrames d ↔ isBelow d i := by
  unfold pausedFrames isBelow
  rw [List.mem_filter, List.mem_range]
  simp only [decide_eq_true_eq]

lemma pausedFrames_sorted (d : List ℚ) : (pausedFrames d).Sorted (· < ·) :=
  (List.pairwise_lt_range d.length).filter _

lemma reverse_range'_headD (a n : ℕ) (hn : 0 < n) :
    ((List.range' a n).reverse).headD 0 = a + n - 1 := by
  obtain ⟨m, rfl⟩ : ∃ m, n = m + 1 := ⟨n - 1, by omega⟩
  rw [List.range'_concat, List.reverse_append]
  simp

lemma isMaxRun_of_block (d : List ℚ) (a n : ℕ) (hn : 0 < n)
    (hbelow : ∀ i, a ≤ i → i < a + n → isBelow d i)
    (hleft : ∀ j, j + 1 = a → ¬ isBelow d j)
    (hnb : ¬ isBelow d (a + n)) : isMaxRun d a (a + n - 1) := by
  refine ⟨by omega, ?_, hleft, ?_⟩
  · intro i h1 h2
    exact hbelow i h1 (by omega)
  · rw [show a + n - 1 + 1 = a + n from by omega]
    exact hnb

/-- A maximal run meeting the block `[a, a+n)` from the left must be the
block itself. -/
lemma run_forced (d : List ℚ) (a n a2 b2 : ℕ)
    (hbelow : ∀ i, a ≤ i → i < a + n → isBelow d i)
    (hnb : ¬ isBelow d (a + n))
    (hm : isMaxRun d a2 b2) (ha2 : a ≤ a2) (ha2lt : a2 < a + n) :
    a2 = a ∧ b2 = a + n - 1 := by
  obtain ⟨hab, hbel, hl, hr⟩ := hm
  have haa : a2 = a := by
    by_contra hne
    have h1 : a < a2 := by omega
    exact hl (a2 - 1) (by omega) (hbelow (a2 - 1) (by omega) (by omega))
  refine ⟨haa, ?_⟩
  have hble : b2 < a + n := by
    by_contra hcon
    push_neg at hcon
    exact hnb (hbel (a + n) (by omega) (by omega))
  have hbge : a + n - 1 ≤ b2 := by
    by_contra hcon
    push_neg at hcon
    exact hr (hbelow (b2 + 1) (by omega) (by omega))
  omega

/-- Membership characterisation of the grouping loop: starting from a
below-threshold block `[a, a+n)` that cannot extend left, with `rest`
holding exactly the below-threshold indices `≥ a+n` in increasing order,
the emitted groups are exactly the maximal below-threshold runs at or
after `a` whose length exceeds 5. -/
lemma groupLoop_mem_iff (d : List ℚ) :
    ∀ (rest : List ℕ) (a n : ℕ), 0 < n →
      (∀ i, a ≤ i → i < a + n → isBelow d i) →
      (∀ j, j + 1 = a → ¬ isBelow d j) →
      (∀ x, x ∈ rest ↔ (isBelow d x ∧ a + n ≤ x)) →
      rest.Sorted (· < ·) →
      ∀ g, (g ∈ groupLoop ((List.range' a n).reverse) rest ↔
        ∃ a2 b2, a ≤ a2 ∧ isMaxRun d a2 b2 ∧ 5 < b2 + 1 - a2 ∧
          g = List.range' a2 (b2 + 1 - a2)) := by
  intro rest
  induction rest with
  | nil =>
      intro a n hn hbelow hleft hmem hsort g
      have hnb : ¬ isBelow d (a + n) := by
        intro hcon
        have := (hmem (a + n)).mpr ⟨hcon, le_refl _⟩
        simp at this
      have hlen : ((List.range' a n).reverse).length = n := by
        rw [List.length_reverse, List.length_range']
      simp only [groupLoop, hlen, List.reverse_reverse]
      constructor
      · intro hg
        by_cases h5 : 5 < n
        · rw [if_pos h5] at hg
          simp only [List.mem_singleton] at hg
          refine ⟨a, a + n - 1, le_refl _,
            isMaxRun_of_block d a n hn hbelow hleft hnb, by omega, ?_⟩
          rw [show a + n - 1 + 1 - a = n from by omega]
          exact hg
        · rw [if_neg h5] at hg
          simp at hg
      · rintro ⟨a2, b2, ha2, hm, h5, hg⟩
        have ha2lt : a2 < a + n := by
          by_contra hcon
          push_neg at hcon
          have hba2 : isBelow d a2 := hm.2.1 a2 (le_refl _) hm.1
          have := (hmem a2).mpr ⟨hba2, hcon⟩
          simp at this
        obtain ⟨rfl, rfl⟩ := run_forced d a n a2 b2 hbelow hnb hm ha2 ha2lt
        rw [if_pos (by omega)]
        simp only [List.mem_singleton]
        rw [hg]
        congr 1
        omega
  | cons f rest2 ih =>
      intro a n hn hbelow hleft hmem hsort g
      obtain ⟨hbf, hfge⟩ := (hmem f).mp (List.mem_cons_self f rest2)
      obtain ⟨hflt, hsort2⟩ := List.sorted_cons.mp hsort
      have hhead : ((List.range' a n).reverse).headD 0 = a + n - 1 :=
        reverse_range'_headD a n hn
      by_cases hfeq : f = a + n
      · have hcond : f = ((List.range' a n).reverse).headD 0 + 1 := by
          rw [hhead]; omega
        have hsnoc : (f :: (List.range' a n).reverse) =
            (List.range' a (n + 1)).reverse := by
          rw [List.range'_concat, List.reverse_append]
          simp [hfeq]
        simp only [groupLoop, if_pos hcond]
        rw [hsnoc]
        refine ih a (n + 1) (by omega) ?_ hleft ?_ hsort2 g
        · intro i h1 h2
          by_cases hi : i < a + n
          · exact hbelow i h1 hi
          · have : i = a + n := by omega
            rw [this, ← hfeq]
            exact hbf
        · intro x
          constructor
          · intro hx
            obtain ⟨h1, _⟩ := (hmem x).mp (List.mem_cons_of_mem f hx)
            have := hflt x hx
            exact ⟨h1, by omega⟩
          · rintro ⟨hbx, hge⟩
            have := (hmem x).mpr ⟨hbx, by omega⟩
            rcases List.mem_cons.mp this with heq | h
            · omega
            · exact h
      · have hcond : ¬ f = ((List.range' a n).reverse).headD 0 + 1 := by
          rw [hhead]; omega
        have hfgt : a + n + 1 ≤ f := by omega
        have hnb : ¬ isBelow d (a + n) := by
          intro hcon
          have := (hmem (a + n)).mpr ⟨hcon, le_refl _⟩
          rcases List.mem_cons.mp this with heq | hm2
          · omega
          · exact absurd (hflt _ hm2) (by omega)
        have hmaxblock := isMaxRun_of_block d a n hn hbelow hleft hnb
        have hbelow2 : ∀ i, f ≤ i → i < f + 1 → isBelow d i := by
          intro i h1 h2
          have : i = f := by omega
          rwa [this]
        have hleft2 : ∀ j, j + 1 = f → ¬ isBelow d j := by
          intro j hj hcon
          have := (hmem j).mpr ⟨hcon, by omega⟩
          rcases List.mem_cons.mp this with heq | hm2
          · omega
          · exact absurd (hflt _ hm2) (by omega)
        have hmem2 : ∀ x, x ∈ rest2 ↔ (isBelow d x ∧ f + 1 ≤ x) := by
          intro x
          constructor
          · intro hx
            obtain ⟨h1, _⟩ := (hmem x).mp (List.mem_cons_of_mem f hx)
            have := hflt x hx
            exact ⟨h1, by omega⟩
          · rintro ⟨hbx, hge⟩
            have := (hmem x).mpr ⟨hbx, by omega⟩
            rcases List.mem_cons.mp this with heq | h
            · omega
            · exact h
        have hIH := ih f 1 (by norm_num) hbelow2 hleft2 hmem2 hsort2
        have hfr : (List.range' f 1).reverse = [f] := by
          simp
        have hlen : ((List.range' a n).reverse).length = n := by
          rw [List.length_reverse, List.length_range']
        have hforce : ∀ a2 b2, a ≤ a2 → isMaxRun d a2 b2 → a2 < a + n →
            a2 = a ∧ b2 = a + n - 1 := by
          intro a2 b2 ha2 hm ha2lt
          exact run_forced d a n a2 b2 hbelow hnb hm ha2 ha2lt
        have htail : ∀ a2 b2, isMaxRun d a2 b2 → a + n ≤ a2 → f ≤ a2 := by
          intro a2 b2 hm hge
          have hba2 : isBelow d a2 := hm.2.1 a2 (le_refl _) hm.1
          have := (hmem a2).mpr ⟨hba2, hge⟩
          rcases List.mem_cons.mp this with heq | hm2
          · omega
          · exact le_of_lt (hflt _ hm2)
        simp only [groupLoop, if_neg hcond, hlen]
        by_cases h5 : 5 < n
        · rw [if_pos h5]
          rw [List.mem_cons]
          constructor
          · rintro (hg | hg)
            · refine ⟨a, a + n - 1, le_refl _, hmaxblock, by omega, ?_⟩
              rw [show a + n - 1 + 1 - a = n from by omega, hg,
                List.reverse_reverse]
            · rw [← hfr] at hg
              obtain ⟨a2, b2, ha2, hm, hl5, hge⟩ := (hIH g).mp hg
              exact ⟨a2, b2, by omega, hm, hl5, hge⟩
          · rintro ⟨a2, b2, ha2, hm, hl5, hge⟩
            by_cases ha2lt : a2 < a + n
            · left
              obtain ⟨rfl, rfl⟩ := hforce a2 b2 ha2 hm ha2lt
              rw [List.reverse_reverse, hge]
              congr 1
              omega
            · right
              push_neg at ha2lt
              rw [← hfr]
              exact (hIH g).mpr ⟨a2, b2, htail a2 b2 hm ha2lt, hm, hl5, hge⟩
        · rw [if_neg h5]
          rw [← hfr, hIH g]
          constructor
          · rintro ⟨a2, b2, ha2, hm, hl5, hge⟩
            exact ⟨a2, b2, by omega, hm, hl5, hge⟩
          · rintro ⟨a2, b2, ha2, hm, hl5, hge⟩
            by_cases ha2lt : a2 < a + n
            · exfalso
              obtain ⟨rfl, rfl⟩ := hforce a2 b2 ha2 hm ha2lt
              omega
            · push_neg at ha2lt
              exact ⟨a2, b2, htail a2 b2 hm ha2lt, hm, hl5, hge⟩

lemma pauseGroups_mem_iff (d : List ℚ) (g : List ℕ) :
    g ∈ pauseGroups d ↔
      ∃ a b, isMaxRun d a b ∧ 5 < b + 1 - a ∧
        g = List.range' a (b + 1 - a) := by
  unfold pauseGroups
  cases hpf : pausedFrames d with
  | nil =>
      simp only [List.not_mem_nil, false_iff]
      rintro ⟨a, b, hm, h5, hg⟩
      have hba : isBelow d a := hm.2.1 a (le_refl _) hm.1
      have := (mem_pausedFrames d a).mpr hba
      rw [hpf] at this
      simp at this
  | cons p rest =>
      have hsort := pausedFrames_sorted d
      rw [hpf] at hsort
      obtain ⟨hplt, hsort2⟩ := List.sorted_cons.mp hsort
      have hbp : isBelow d p := by
        have hpm : p ∈ pausedFrames d := by
          rw [hpf]
          exact List.mem_cons_self _ _
        exact (mem_pausedFrames d p).mp hpm
      have hfr : (List.range' p 1).reverse = [p] := by simp
      have hbelow : ∀ i, p ≤ i → i < p + 1 → isBelow d i := by
        intro i h1 h2
        have : i = p := by omega
        rwa [this]
      have hleft : ∀ j, j + 1 = p → ¬ isBelow d j := by
        intro j hj hcon
        have hjm : j ∈ pausedFrames d := (mem_pausedFrames d j).mpr hcon
        rw [hpf] at hjm
        rcases List.mem_cons.mp hjm with heq | hm2
        · omega
        · exact absurd (hplt _ hm2) (by omega)
      have hmem : ∀ x, x ∈ rest ↔ (isBelow d x ∧ p + 1 ≤ x) := by
        intro x
        constructor
        · intro hx
          have hxm : x ∈ pausedFrames d := by
            rw [hpf]
            exact List.mem_cons_of_mem _ hx
          exact ⟨(mem_pausedFrames d x).mp hxm, by have := hplt x hx; omega⟩
        · rintro ⟨hbx, hge⟩
          have hxm : x ∈ pausedFrames d := (mem_pausedFrames d x).mpr hbx
          rw [hpf] at hxm
          rcases List.mem_cons.mp hxm with heq | h
          · omega
          · exact h
      change g ∈ groupLoop [p] rest ↔ _
      rw [← hfr,
        groupLoop_mem_iff d rest p 1 (by norm_num) hbelow hleft hmem hsort2 g]
      constructor
      · rintro ⟨a2, b2, _, hm, h5, hg⟩
        exact ⟨a2, b2, hm, h5, hg⟩
      · rintro ⟨a2, b2, hm, h5, hg⟩
        have hba : isBelow d a2 := hm.2.1 a2 (le_refl _) hm.1
        have ha2m : a2 ∈ pausedFrames d := (mem_pausedFrames d a2).mpr hba
        rw [hpf] at ha2m
        have hpa : p ≤ a2 := by
          rcases List.mem_cons.mp ha2m with rfl | h
          · exact le_refl _
          · exact le_of_lt (hplt _ h)
        exact ⟨a2, b2, hpa, hm, h5, hg⟩

/-- C4 (amended): the returned pause groups are exactly the maximal
contiguous runs of below-threshold indices whose length exceeds 5
(`len(group) > 5`); soundness holds as claimed, but completeness holds
only for runs of length at least 6 — a maximal run of length exactly 5 is
discarded. -/
theorem C4_quiescent_runs_amended (d : List ℚ) (g : List ℕ) :
    g ∈ pauseGroups d ↔
      ∃ a b, isMaxRun d a b ∧ 5 < b + 1 - a ∧
        g = List.range' a (b + 1 - a) :=
  pauseGroups_mem_iff d g

/-- C4 counterexample: for
`D = [0, 0, 0, 0, 0, 10, 10, 10, 10, 10]` the threshold is
`0.3 · mean(D) = 3/2`, the interval `[0, 4]` is a maximal below-threshold
run of length exactly 5, yet `analyze_frames` returns no pause group —
refuting the claim that every maximal run of length at least 5 is
returned. -/
theorem C4_counterexample :
    isMaxRun ([0, 0, 0, 0, 0, 10, 10, 10, 10, 10] : List ℚ) 0 4 ∧
    (4 + 1 - 0 = 5) ∧
    List.range' 0 5 ∉
      pauseGroups ([0, 0, 0, 0, 0, 10, 10, 10, 10, 10] : List ℚ) := by
  have hτ : threshold ([0, 0, 0, 0, 0, 10, 10, 10, 10, 10] : List ℚ) = 3 / 2 := by
    unfold threshold
    simp only [List.sum_cons, List.sum_nil, List.length_cons, List.length_nil]
    norm_num
  refine ⟨⟨by norm_num, ?_, ?_, ?_⟩, by norm_num, ?_⟩
  · intro i h1 h2
    constructor
    · simp only [List.length_cons, List.length_nil]
      omega
    · interval_cases i <;>
        norm_num [hτ, List.getD_cons_zero, List.getD_cons_succ]
  · intro j hj
    omega
  · rintro ⟨h1, h2⟩
    rw [hτ] at h2
    norm_num [List.getD_cons_zero, List.getD_cons_succ] at h2
  · intro hmem
    obtain ⟨a, b, hm, h5, hg⟩ := (pauseGroups_mem_iff _ _).mp hmem
    have hlen := congrArg List.length hg
    simp only [List.length_range'] at hlen
    omega

end FlipPredict
